import Mathlib

/-!
Shallow embedding of the `history-buffer` crate (src/lib.rs): a fixed-capacity
circular "history buffer" keeping the most recent values written to it.

Modelling conventions:
* `std::time::Instant` is modelled as a `Nat` timestamp; operations that read
  the clock take an explicit `now : Nat` argument.
* `usize` is modelled as `Nat`; the only arithmetic on `write_index` is
  `wrapping_add(1)` followed by `% max_size`, and since `write_index` is far
  below `usize::MAX` on every state the model uses plain `Nat` addition.
* Operations that can panic in Rust (out-of-bounds indexing, `% 0`, slicing
  past the length) return `Option`: `none` models a panic.
-/

namespace HistoryBufferSpec

/-- The struct `HistoryBuffer<T>` from src/lib.rs: `max_size` (capacity),
`write_index` (next slot to write), `buffer` (the `Vec<T>` storage) and
`last_data_at` (timestamp of the last write, or of construction). -/
structure HistoryBuffer (T : Type) where
  max_size : Nat
  write_index : Nat
  buffer : List T
  last_data_at : Nat
deriving DecidableEq

/-- `HistoryBuffer::new(max_size)`: empty buffer, cursor 0, timer set to the
current time. -/
def HistoryBuffer.new (T : Type) (max_size : Nat) (now : Nat) : HistoryBuffer T :=
  ⟨max_size, 0, [], now⟩

/-- `is_empty`: `self.buffer.len() == 0`. -/
def HistoryBuffer.is_empty {T : Type} (s : HistoryBuffer T) : Bool :=
  s.buffer.length == 0

/-- `is_full`: `self.buffer.len() == self.max_size`. -/
def HistoryBuffer.is_full {T : Type} (s : HistoryBuffer T) : Bool :=
  s.buffer.length == s.max_size

/-- `max_len`: returns `self.max_size`. -/
def HistoryBuffer.max_len {T : Type} (s : HistoryBuffer T) : Nat :=
  s.max_size

/-- `len`: returns `self.buffer.len()`. -/
def HistoryBuffer.len {T : Type} (s : HistoryBuffer T) : Nat :=
  s.buffer.length

/-- `clear`: sets `write_index = 0` and empties the buffer; `max_size` and
`last_data_at` are untouched. -/
def HistoryBuffer.clear {T : Type} (s : HistoryBuffer T) : HistoryBuffer T :=
  ⟨s.max_size, 0, [], s.last_data_at⟩

/-- `most_recent`: `None` when empty, otherwise `buffer.last()` when
`write_index == 0`, otherwise `buffer[write_index - 1]`.  The outer `Option`
models the possible panic of the indexing `self.buffer[self.write_index - 1]`;
the inner `Option T` is the Rust return value. -/
def HistoryBuffer.most_recent {T : Type} (s : HistoryBuffer T) : Option (Option T) :=
  if s.is_empty then some none
  else if s.write_index == 0 then some s.buffer.getLast?
  else (s.buffer[s.write_index - 1]?).map some

/-- `write(val)`: when full, `mem::replace(&mut self.buffer[self.write_index], val)`
(indexing may panic); otherwise `push(val)`.  Then in both branches
`write_index = (write_index + 1) % max_size` (panics when `max_size == 0`) and
`last_data_at` is set to the current time.  `none` models a panic; the indexing
panic happens before the modulo, as in the source. -/
def HistoryBuffer.write {T : Type} (s : HistoryBuffer T) (val : T) (now : Nat) :
    Option (Option T × HistoryBuffer T) :=
  if s.is_full then
    match s.buffer[s.write_index]? with
    | none => none
    | some old =>
      if s.max_size == 0 then none
      else some (some old,
        ⟨s.max_size, (s.write_index + 1) % s.max_size, s.buffer.set s.write_index val, now⟩)
  else
    if s.max_size == 0 then none
    else some (none,
      ⟨s.max_size, (s.write_index + 1) % s.max_size, s.buffer ++ [val], now⟩)

/-- `duration_since_last_measurement`: `Some(now - last_data_at)` when the
buffer is non-empty, `None` when empty. -/
def HistoryBuffer.duration_since_last_measurement {T : Type} (s : HistoryBuffer T)
    (now : Nat) : Option Nat :=
  if !s.is_empty then some (now - s.last_data_at) else none

/-- `all_unsorted`: the raw storage `&self.buffer`, in physical slot order. -/
def HistoryBuffer.all_unsorted {T : Type} (s : HistoryBuffer T) : List T :=
  s.buffer

/-- `all`: `buffer[write_index..]` chained with `buffer[..write_index]`.  The
slicing panics (modelled by `none`) when `write_index` exceeds the length. -/
def HistoryBuffer.all {T : Type} (s : HistoryBuffer T) : Option (List T) :=
  if s.write_index ≤ s.buffer.length then
    some (s.buffer.drop s.write_index ++ s.buffer.take s.write_index)
  else none

/-- Run a sequence of writes, collecting the returned displaced values.
`none` models a panic of any individual write. -/
def writeAll {T : Type} (s : HistoryBuffer T) (vs : List T) (now : Nat) :
    Option (List (Option T) × HistoryBuffer T) :=
  match vs with
  | [] => some ([], s)
  | v :: rest =>
    match s.write v now with
    | none => none
    | some (r, s1) =>
      match writeAll s1 rest now with
      | none => none
      | some (rs, s2) => some (r :: rs, s2)

/-- The chronological (oldest-first) view of the storage, as produced by
`all()` when the slicing is in bounds. -/
def chron {T : Type} (s : HistoryBuffer T) : List T :=
  s.buffer.drop s.write_index ++ s.buffer.take s.write_index

/-- States reachable from a freshly constructed buffer by successful writes
and clears. -/
inductive Reachable (T : Type) : HistoryBuffer T → Prop where
  | new (c now : Nat) : Reachable T (HistoryBuffer.new T c now)
  | write (s : HistoryBuffer T) (v : T) (now : Nat) (r : Option T) (s2 : HistoryBuffer T) :
      Reachable T s → s.write v now = some (r, s2) → Reachable T s2
  | clear (s : HistoryBuffer T) : Reachable T s → Reachable T s.clear

/-- On a full buffer whose cursor is in range, `write` replaces the slot at the
cursor, returns its old occupant, and advances the cursor modulo the capacity. -/
theorem write_full_eq {T : Type} {s : HistoryBuffer T} (v : T) (now : Nat)
    (hf : s.buffer.length = s.max_size) (hw : s.write_index < s.buffer.length) :
    ∃ old, s.buffer[s.write_index]? = some old ∧
      s.write v now = some (some old,
        ⟨s.max_size, (s.write_index + 1) % s.max_size, s.buffer.set s.write_index v, now⟩) := by
  have hget : s.buffer[s.write_index]? = some (s.buffer[s.write_index]) :=
    List.getElem?_eq_getElem hw
  have hc0 : s.max_size ≠ 0 := by omega
  refine ⟨s.buffer[s.write_index], hget, ?_⟩
  simp [HistoryBuffer.write, HistoryBuffer.is_full, hf, hget, hc0]

/-- On a non-full buffer with non-zero capacity, `write` appends the value,
returns nothing, and advances the cursor modulo the capacity. -/
theorem write_not_full_eq {T : Type} {s : HistoryBuffer T} (v : T) (now : Nat)
    (hnf : s.buffer.length ≠ s.max_size) (hc0 : s.max_size ≠ 0) :
    s.write v now = some (none,
      ⟨s.max_size, (s.write_index + 1) % s.max_size, s.buffer ++ [v], now⟩) := by
  simp [HistoryBuffer.write, HistoryBuffer.is_full, hnf, hc0]

/-- Inversion principle for a successful `write`. -/
theorem write_eq_some_inv {T : Type} {s s2 : HistoryBuffer T} {v : T} {now : Nat}
    {r : Option T} (h : s.write v now = some (r, s2)) :
    s.max_size ≠ 0 ∧ s2.max_size = s.max_size ∧
    s2.write_index = (s.write_index + 1) % s.max_size ∧ s2.last_data_at = now ∧
    ((s.buffer.length = s.max_size ∧ s.write_index < s.buffer.length ∧
        r = s.buffer[s.write_index]? ∧ s2.buffer = s.buffer.set s.write_index v) ∨
      (s.buffer.length ≠ s.max_size ∧ r = none ∧ s2.buffer = s.buffer ++ [v])) := by
  by_cases hf : s.buffer.length = s.max_size
  · cases hget : s.buffer[s.write_index]? with
    | none =>
      exfalso
      rw [HistoryBuffer.write, if_pos (by simp [HistoryBuffer.is_full, hf]), hget] at h
      exact Option.noConfusion h
    | some old =>
      have hw : s.write_index < s.buffer.length := by
        by_contra hge
        rw [List.getElem?_eq_none (Nat.le_of_not_lt hge)] at hget
        exact Option.noConfusion hget
      obtain ⟨old2, hget2, hwr⟩ := write_full_eq v now hf hw
      rw [hwr] at h
      have hpair := Option.some.inj h
      have hr : some old2 = r := congrArg Prod.fst hpair
      have hs : (⟨s.max_size, (s.write_index + 1) % s.max_size,
          s.buffer.set s.write_index v, now⟩ : HistoryBuffer T) = s2 :=
        congrArg Prod.snd hpair
      have hc0 : s.max_size ≠ 0 := by omega
      subst hs
      refine ⟨hc0, rfl, rfl, rfl, Or.inl ⟨hf, hw, ?_, rfl⟩⟩
      rw [← hr]
      exact hget2.symm.trans hget
  · have hc0 : s.max_size ≠ 0 := by
      intro h0
      rw [HistoryBuffer.write, if_neg (by simp [HistoryBuffer.is_full, hf]),
        if_pos (by simp [h0])] at h
      exact Option.noConfusion h
    have hwr := write_not_full_eq v now hf hc0
    rw [hwr] at h
    have hpair := Option.some.inj h
    have hr : (none : Option T) = r := congrArg Prod.fst hpair
    have hs : (⟨s.max_size, (s.write_index + 1) % s.max_size,
        s.buffer ++ [v], now⟩ : HistoryBuffer T) = s2 :=
      congrArg Prod.snd hpair
    subst hs
    exact ⟨hc0, rfl, rfl, rfl, Or.inr ⟨hf, hr.symm, rfl⟩⟩

/-- Claim C1: with positive capacity and a valid cursor, a write on a full
buffer displaces the element at the cursor, returns it, and stores the new
value in that slot; a write on a non-full buffer appends the value and returns
nothing; in both cases the cursor advances to `(write_index + 1) % max_size`. -/
theorem write_behavior {T : Type} (s : HistoryBuffer T) (v : T) (now : Nat)
    (hc : 0 < s.max_size) (hw : s.write_index < s.max_size) :
    ∃ r s2, s.write v now = some (r, s2) ∧
      s2.write_index = (s.write_index + 1) % s.max_size ∧
      s2.max_size = s.max_size ∧
      (s.is_full = true →
        ∃ old, s.buffer[s.write_index]? = some old ∧ r = some old ∧
          s2.buffer = s.buffer.set s.write_index v ∧
          s2.buffer[s.write_index]? = some v ∧
          s2.buffer.length = s.buffer.length) ∧
      (s.is_full = false → r = none ∧ s2.buffer = s.buffer ++ [v] ∧
        s2.buffer.length = s.buffer.length + 1) := by
  by_cases hf : s.buffer.length = s.max_size
  · have hwlen : s.write_index < s.buffer.length := by omega
    obtain ⟨old, hold, hwr⟩ := write_full_eq v now hf hwlen
    refine ⟨some old, _, hwr, rfl, rfl, fun _ => ⟨old, hold, rfl, rfl, ?_, ?_⟩,
      fun hnf => ?_⟩
    · exact List.getElem?_set_self hwlen
    · simp
    · simp [HistoryBuffer.is_full, hf] at hnf
  · have hc0 : s.max_size ≠ 0 := by omega
    refine ⟨none, _, write_not_full_eq v now hf hc0, rfl, rfl, fun hfl => ?_,
      fun _ => ⟨rfl, rfl, by simp⟩⟩
    simp [HistoryBuffer.is_full, hf] at hfl

/-- Concrete instance of `write_behavior` on the full buffer `[10, 20]` of
capacity 2 with cursor 1. -/
theorem write_behavior_witness :
    0 < (2 : Nat) ∧ (1 : Nat) < 2 ∧
    ∃ r s2, HistoryBuffer.write ⟨2, 1, [10, 20], 0⟩ 99 5 = some (r, s2) ∧
      s2.write_index = (1 + 1) % 2 ∧
      s2.max_size = 2 ∧
      (HistoryBuffer.is_full (⟨2, 1, [10, 20], 0⟩ : HistoryBuffer Nat) = true →
        ∃ old, ([10, 20] : List Nat)[1]? = some old ∧ r = some old ∧
          s2.buffer = ([10, 20] : List Nat).set 1 99 ∧
          s2.buffer[1]? = some 99 ∧
          s2.buffer.length = ([10, 20] : List Nat).length) ∧
      (HistoryBuffer.is_full (⟨2, 1, [10, 20], 0⟩ : HistoryBuffer Nat) = false →
        r = none ∧ s2.buffer = [10, 20] ++ [99] ∧
        s2.buffer.length = ([10, 20] : List Nat).length + 1) :=
  ⟨by decide, by decide, write_behavior ⟨2, 1, [10, 20], 0⟩ 99 5 (by decide) (by decide)⟩

/-- Claim C7: `clear` resets the cursor to 0 and empties the storage, leaving
the capacity and the staleness timestamp unchanged; afterwards `len` is 0 and
`is_empty` holds, and a subsequent write behaves exactly as on a freshly
constructed buffer of the same capacity. -/
theorem clear_spec {T : Type} (s : HistoryBuffer T) :
    s.clear.write_index = 0 ∧ s.clear.buffer = [] ∧ s.clear.max_size = s.max_size ∧
    s.clear.last_data_at = s.last_data_at ∧ s.clear.len = 0 ∧ s.clear.is_empty = true ∧
    ∀ (v : T) (now t0 : Nat),
      s.clear.write v now = (HistoryBuffer.new T s.max_size t0).write v now :=
  ⟨rfl, rfl, rfl, rfl, rfl, rfl, fun _ _ _ => rfl⟩

/-- Concrete instance of `clear_spec` on a capacity-2 buffer holding `[10, 20]`. -/
theorem clear_spec_witness :
    (HistoryBuffer.clear ⟨2, 1, [10, 20], 7⟩ : HistoryBuffer Nat).write_index = 0 ∧
    (HistoryBuffer.clear ⟨2, 1, [10, 20], 7⟩ : HistoryBuffer Nat).buffer = [] ∧
    (HistoryBuffer.clear ⟨2, 1, [10, 20], 7⟩ : HistoryBuffer Nat).max_size = 2 ∧
    (HistoryBuffer.clear ⟨2, 1, [10, 20], 7⟩ : HistoryBuffer Nat).last_data_at = 7 ∧
    (HistoryBuffer.clear ⟨2, 1, [10, 20], 7⟩ : HistoryBuffer Nat).len = 0 ∧
    (HistoryBuffer.clear ⟨2, 1, [10, 20], 7⟩ : HistoryBuffer Nat).is_empty = true ∧
    ∀ (v : Nat) (now t0 : Nat),
      (HistoryBuffer.clear ⟨2, 1, [10, 20], 7⟩ : HistoryBuffer Nat).write v now =
        (HistoryBuffer.new Nat 2 t0).write v now :=
  clear_spec ⟨2, 1, [10, 20], 7⟩

/-- Claim C8: `duration_since_last_measurement` returns the elapsed time since
`last_data_at` exactly when the buffer is non-empty, and returns nothing when
the buffer is empty — including immediately after a `clear`, even though the
timestamp is still stored. -/
theorem duration_spec {T : Type} (s : HistoryBuffer T) (now : Nat) :
    ((s.duration_since_last_measurement now).isSome ↔ s.is_empty = false) ∧
    (s.is_empty = false →
      s.duration_since_last_measurement now = some (now - s.last_data_at)) ∧
    (s.is_empty = true → s.duration_since_last_measurement now = none) ∧
    s.clear.duration_since_last_measurement now = none := by
  unfold HistoryBuffer.duration_since_last_measurement
  cases he : s.is_empty <;>
    simp [he, HistoryBuffer.clear, HistoryBuffer.is_empty]

/-- Concrete instance of `duration_spec` on a non-empty capacity-2 buffer. -/
theorem duration_spec_witness :
    (((⟨2, 1, [10], 3⟩ : HistoryBuffer Nat).duration_since_last_measurement 9).isSome ↔
      (⟨2, 1, [10], 3⟩ : HistoryBuffer Nat).is_empty = false) ∧
    ((⟨2, 1, [10], 3⟩ : HistoryBuffer Nat).is_empty = false →
      (⟨2, 1, [10], 3⟩ : HistoryBuffer Nat).duration_since_last_measurement 9 =
        some (9 - 3)) ∧
    ((⟨2, 1, [10], 3⟩ : HistoryBuffer Nat).is_empty = true →
      (⟨2, 1, [10], 3⟩ : HistoryBuffer Nat).duration_since_last_measurement 9 = none) ∧
    (HistoryBuffer.clear ⟨2, 1, [10], 3⟩ :
      HistoryBuffer Nat).duration_since_last_measurement 9 = none :=
  duration_spec ⟨2, 1, [10], 3⟩ 9

/-- Claim C9: `all_unsorted` is the raw storage in physical slot order, and its
length equals `len()`. -/
theorem all_unsorted_spec {T : Type} (s : HistoryBuffer T) :
    s.all_unsorted = s.buffer ∧ s.all_unsorted.length = s.len :=
  ⟨rfl, rfl⟩

/-- Concrete instance of `all_unsorted_spec`. -/
theorem all_unsorted_spec_witness :
    (⟨3, 1, [10, 20], 0⟩ : HistoryBuffer Nat).all_unsorted = [10, 20] ∧
    (⟨3, 1, [10, 20], 0⟩ : HistoryBuffer Nat).all_unsorted.length =
      (⟨3, 1, [10, 20], 0⟩ : HistoryBuffer Nat).len :=
  all_unsorted_spec ⟨3, 1, [10, 20], 0⟩

/-- Claim C10: a zero-capacity buffer is simultaneously full and empty, its
storage has no slot 0 (the index a full-buffer write would replace), and every
write on it panics (`none` in the model) rather than the construction rejecting
zero capacity or the write acting as a no-op returning the input. -/
theorem zero_capacity_behavior (T : Type) (t : Nat) :
    (HistoryBuffer.new T 0 t).is_full = true ∧
    (HistoryBuffer.new T 0 t).is_empty = true ∧
    ((HistoryBuffer.new T 0 t).buffer)[0]? = none ∧
    ∀ (v : T) (now : Nat), (HistoryBuffer.new T 0 t).write v now = none :=
  ⟨rfl, rfl, rfl, fun _ _ => rfl⟩

/-- Master invariant of reachable states: the storage never exceeds the
capacity, the cursor never passes the storage length, with positive capacity
the cursor is a valid slot index, and while not full the cursor equals the
storage length. -/
theorem reachable_inv {T : Type} {s : HistoryBuffer T} (h : Reachable T s) :
    s.buffer.length ≤ s.max_size ∧ s.write_index ≤ s.buffer.length ∧
    (0 < s.max_size → s.write_index < s.max_size) ∧
    (s.buffer.length < s.max_size → s.write_index = s.buffer.length) := by
  induction h with
  | new c now => exact ⟨Nat.zero_le _, Nat.le_refl _, fun hc => hc, fun _ => rfl⟩
  | write s v now r s2 hreach hw ih =>
    obtain ⟨hlen, hwle, hwlt, hweq⟩ := ih
    obtain ⟨hc0, hmax, hwi, hld, hcases⟩ := write_eq_some_inv hw
    have hc : 0 < s.max_size := Nat.pos_of_ne_zero hc0
    have hmod : (s.write_index + 1) % s.max_size < s.max_size := Nat.mod_lt _ hc
    cases hcases with
    | inl hfull =>
      obtain ⟨hf, hwlen, hr, hbuf⟩ := hfull
      have hlen2 : s2.buffer.length = s.buffer.length := by rw [hbuf]; simp
      refine ⟨by omega, by omega, fun _ => by omega, fun hlt => by omega⟩
    | inr hnfull =>
      obtain ⟨hf, hr, hbuf⟩ := hnfull
      have hlen2 : s2.buffer.length = s.buffer.length + 1 := by rw [hbuf]; simp
      have hlt : s.buffer.length < s.max_size := by omega
      have hwe : s.write_index = s.buffer.length := hweq hlt
      rcases Nat.lt_or_ge (s.buffer.length + 1) s.max_size with hsm | hsm
      · have hmod2 : (s.write_index + 1) % s.max_size = s.write_index + 1 :=
          Nat.mod_eq_of_lt (by omega)
        refine ⟨by omega, by omega, fun _ => by omega, fun _ => by omega⟩
      · have hend : s.write_index + 1 = s.max_size := by omega
        have hmod2 : (s.write_index + 1) % s.max_size = 0 := by
          rw [hend, Nat.mod_self]
        refine ⟨by omega, by omega, fun _ => by omega, fun h2 => by omega⟩
  | clear s hreach ih =>
    exact ⟨Nat.zero_le _, Nat.le_refl _, fun hc => hc, fun _ => rfl⟩

/-- Claim C5: on every state reachable by new/write/clear with positive
capacity, the storage length is at most the capacity, the write cursor is a
valid slot index, and while the buffer is not full the cursor equals the
storage length. -/
theorem invariants_preserved {T : Type} (s : HistoryBuffer T)
    (h : Reachable T s) (hc : 0 < s.max_size) :
    s.len ≤ s.max_size ∧ s.write_index < s.max_size ∧
    (s.is_full = false → s.write_index = s.len) := by
  obtain ⟨h1, h2, h3, h4⟩ := reachable_inv h
  refine ⟨h1, h3 hc, fun hnf => ?_⟩
  have hne : s.buffer.length ≠ s.max_size := by
    simpa [HistoryBuffer.is_full] using hnf
  exact h4 (by omega)

/-- Concrete instance of `invariants_preserved` on the state reached by one
write into a fresh capacity-2 buffer. -/
theorem invariants_preserved_witness :
    HistoryBuffer.len (⟨2, 1, [5], 1⟩ : HistoryBuffer Nat) ≤ 2 ∧ (1 : Nat) < 2 ∧
    (HistoryBuffer.is_full (⟨2, 1, [5], 1⟩ : HistoryBuffer Nat) = false →
      (1 : Nat) = HistoryBuffer.len (⟨2, 1, [5], 1⟩ : HistoryBuffer Nat)) :=
  invariants_preserved ⟨2, 1, [5], 1⟩
    (Reachable.write (HistoryBuffer.new Nat 2 0) 5 1 none ⟨2, 1, [5], 1⟩
      (Reachable.new 2 0) (by decide))
    (by decide)

/-- Claim C6: on reachable states with positive capacity no operation panics.
`write`, `most_recent` and `all` — the only operations whose Rust code indexes,
slices or divides — always succeed in the panic-as-`none` model; every other
interface operation (`new`, `is_empty`, `is_full`, `max_len`, `len`, `clear`,
`duration_since_last_measurement`, `all_unsorted`) is a total function of the
model by construction. -/
theorem operations_total {T : Type} (s : HistoryBuffer T)
    (h : Reachable T s) (hc : 0 < s.max_size) :
    (∀ (v : T) (now : Nat), (s.write v now).isSome = true) ∧
    s.most_recent.isSome = true ∧ s.all.isSome = true := by
  obtain ⟨h1, h2, h3, h4⟩ := reachable_inv h
  refine ⟨fun v now => ?_, ?_, ?_⟩
  · by_cases hf : s.buffer.length = s.max_size
    · have hw : s.write_index < s.buffer.length := by
        have := h3 hc; omega
      obtain ⟨old, _, hwr⟩ := write_full_eq v now hf hw
      rw [hwr]; rfl
    · rw [write_not_full_eq v now hf (by omega)]; rfl
  · unfold HistoryBuffer.most_recent
    by_cases he : s.is_empty = true
    · simp [he]
    · have hlen0 : s.buffer.length ≠ 0 := by
        simpa [HistoryBuffer.is_empty] using he
      by_cases hw0 : s.write_index = 0
      · simp [he, hw0]
      · have hlt : s.write_index - 1 < s.buffer.length := by omega
        simp [he, hw0, List.getElem?_eq_getElem hlt]
  · unfold HistoryBuffer.all
    simp [h2]

/-- Concrete instance of `operations_total` on the state reached by one write
into a fresh capacity-3 buffer. -/
theorem operations_total_witness :
    (∀ (v : Nat) (now : Nat),
      (HistoryBuffer.write (⟨3, 1, [5], 1⟩ : HistoryBuffer Nat) v now).isSome = true) ∧
    (HistoryBuffer.most_recent (⟨3, 1, [5], 1⟩ : HistoryBuffer Nat)).isSome = true ∧
    (HistoryBuffer.all (⟨3, 1, [5], 1⟩ : HistoryBuffer Nat)).isSome = true :=
  operations_total ⟨3, 1, [5], 1⟩
    (Reachable.write (HistoryBuffer.new Nat 3 0) 5 1 none ⟨3, 1, [5], 1⟩
      (Reachable.new 3 0) (by decide))
    (by decide)

/-- When the cursor sits at the storage length (growing phase), the
chronological view is the storage itself. -/
theorem chron_of_cursor_eq_length {T : Type} {s : HistoryBuffer T}
    (h : s.write_index = s.buffer.length) : chron s = s.buffer := by
  unfold chron
  rw [h, List.drop_length, List.take_length, List.nil_append]

/-- When the cursor is 0, the chronological view is the storage itself. -/
theorem chron_of_cursor_zero {T : Type} {s : HistoryBuffer T}
    (h : s.write_index = 0) : chron s = s.buffer := by
  unfold chron
  rw [h, List.drop_zero, List.take_zero, List.append_nil]

/-- The head of the chronological view is the slot under the cursor. -/
theorem chron_head {T : Type} {s : HistoryBuffer T}
    (h : s.write_index < s.buffer.length) :
    (chron s)[0]? = s.buffer[s.write_index]? := by
  unfold chron
  rw [List.getElem?_append_left (by simp [List.length_drop]; omega), List.getElem?_drop]
  simp

/-- Dropping past a block of known length plus one lands after the inserted
element. -/
theorem drop_len_succ_append {T : Type} {A B : List T} (v : T) :
    (A ++ v :: B).drop (A.length + 1) = B := by
  rw [List.drop_append]
  simp

/-- Taking a block of known length plus one keeps the block and the inserted
element. -/
theorem take_len_succ_append {T : Type} {A B : List T} (v : T) :
    (A ++ v :: B).take (A.length + 1) = A ++ [v] := by
  rw [List.take_append]
  simp

/-- One overwrite step rotates the chronological view: overwriting the slot at
the cursor of a full buffer and advancing the cursor modulo the capacity drops
the oldest element and appends the new value at the end. -/
theorem chron_set_step {T : Type} {l : List T} {c w : Nat} (hl : l.length = c)
    (hw : w < c) (v : T) :
    (l.set w v).drop ((w + 1) % c) ++ (l.set w v).take ((w + 1) % c) =
      (l.drop w ++ l.take w).tail ++ [v] := by
  have hwl : w < l.length := by omega
  have hset : l.set w v = l.take w ++ v :: l.drop (w + 1) := by
    rw [List.set_eq_take_append_cons_drop, if_pos hwl]
  have htw : (l.take w).length = w := by
    rw [List.length_take]; omega
  have hdropcons : l.drop w = l[w] :: l.drop (w + 1) := List.drop_eq_getElem_cons hwl
  rcases Nat.lt_or_ge (w + 1) c with hlt | hge
  · have hmod : (w + 1) % c = w + 1 := Nat.mod_eq_of_lt hlt
    have hd : (l.take w ++ v :: l.drop (w + 1)).drop (w + 1) = l.drop (w + 1) := by
      have h1 := drop_len_succ_append (A := l.take w) (B := l.drop (w + 1)) v
      rw [htw] at h1
      exact h1
    have ht : (l.take w ++ v :: l.drop (w + 1)).take (w + 1) = l.take w ++ [v] := by
      have h1 := take_len_succ_append (A := l.take w) (B := l.drop (w + 1)) v
      rw [htw] at h1
      exact h1
    rw [hmod, hset, hd, ht, hdropcons, List.cons_append, List.tail_cons, List.append_assoc]
  · have hend : w + 1 = c := by omega
    have hmod : (w + 1) % c = 0 := by rw [hend, Nat.mod_self]
    have hdc : l.drop (w + 1) = [] := List.drop_eq_nil_of_le (by omega)
    rw [hmod, List.drop_zero, List.take_zero, List.append_nil, hset, hdc, hdropcons, hdc]
    simp

/-- Unfolding equation for `writeAll` on a cons when both the write and the
recursive run succeed. -/
theorem writeAll_cons_some {T : Type} (s s1 s2 : HistoryBuffer T) (v : T)
    (rest : List T) (now : Nat) (r : Option T) (rs : List (Option T))
    (hw : s.write v now = some (r, s1))
    (hrest : writeAll s1 rest now = some (rs, s2)) :
    writeAll s (v :: rest) now = some (r :: rs, s2) := by
  simp only [writeAll, hw, hrest]

/-- Mapping over a range of successor length splits off the first index. -/
theorem range_map_cons_eq {T : Type} (n : Nat) (f0 : Option T)
    (f g : Nat → Option T) (h0 : f 0 = f0) (hfg : ∀ j, f (j + 1) = g j) :
    (List.range (n + 1)).map f = f0 :: (List.range n).map g := by
  rw [List.range_succ_eq_map, List.map_cons, h0, List.map_map]
  have hcomp : f ∘ Nat.succ = g := by
    funext j
    simp only [Function.comp_apply, Nat.succ_eq_add_one]
    exact hfg j
  rw [hcomp]

/-- Closed-form characterization of running a sequence of writes.  Starting
from a state that is the result of writing `ws` into a fresh buffer of positive
capacity `c` (storage length `min ws.length c`, cursor `ws.length % c`,
chronological view the last `c` values of `ws`), writing `vs` succeeds, each
write returns `none` while fewer than `c` values have been written in total and
afterwards the oldest surviving value, and the final state is in the same
closed form for `ws ++ vs`. -/
theorem writeAll_spec {T : Type} (c now : Nat) (hc : 0 < c) (vs : List T) :
    ∀ (ws : List T) (s : HistoryBuffer T),
      s.max_size = c →
      s.buffer.length = min ws.length c →
      s.write_index = ws.length % c →
      chron s = ws.drop (ws.length - c) →
      ∃ s2, writeAll s vs now = some
          ((List.range vs.length).map fun j =>
            if ws.length + j < c then none else (ws ++ vs)[ws.length + j - c]?, s2) ∧
        s2.max_size = c ∧
        s2.buffer.length = min (ws.length + vs.length) c ∧
        s2.write_index = (ws.length + vs.length) % c ∧
        chron s2 = (ws ++ vs).drop (ws.length + vs.length - c) := by
  induction vs with
  | nil =>
    intro ws s hmax hlen hwi hch
    refine ⟨s, by simp [writeAll], hmax, by simpa using hlen, by simpa using hwi, ?_⟩
    simpa using hch
  | cons v rest ih =>
    intro ws s hmax hlen hwi hch
    have harr : (ws ++ [v]).length = ws.length + 1 := by simp
    have hLrw : (ws ++ [v]).length + rest.length = ws.length + (v :: rest).length := by
      simp only [List.length_append, List.length_cons, List.length_nil]
      omega
    have hlist : (ws ++ [v]) ++ rest = ws ++ v :: rest := by simp
    rcases Nat.lt_or_ge ws.length c with hmlt | hmge
    · -- growing phase: the buffer is not yet full
      have hlenv : s.buffer.length = ws.length := by omega
      have hwiv : s.write_index = ws.length := by
        rw [hwi, Nat.mod_eq_of_lt hmlt]
      have hbuf : s.buffer = ws := by
        have h1 : chron s = s.buffer := chron_of_cursor_eq_length (by omega)
        have h2 : ws.drop (ws.length - c) = ws := by
          rw [Nat.sub_eq_zero_of_le (Nat.le_of_lt hmlt), List.drop_zero]
        rw [← h1, hch, h2]
      have hnf : s.buffer.length ≠ s.max_size := by omega
      have hc0 : s.max_size ≠ 0 := by omega
      have hwr := write_not_full_eq v now hnf hc0
      have hmax1 : (⟨s.max_size, (s.write_index + 1) % s.max_size,
          s.buffer ++ [v], now⟩ : HistoryBuffer T).max_size = c := hmax
      have hlen1 : (⟨s.max_size, (s.write_index + 1) % s.max_size,
          s.buffer ++ [v], now⟩ : HistoryBuffer T).buffer.length =
          min (ws ++ [v]).length c := by
        simp only [List.length_append, List.length_cons, List.length_nil]
        omega
      have hwi1 : (⟨s.max_size, (s.write_index + 1) % s.max_size,
          s.buffer ++ [v], now⟩ : HistoryBuffer T).write_index =
          (ws ++ [v]).length % c := by
        show (s.write_index + 1) % s.max_size = (ws ++ [v]).length % c
        rw [harr, hwiv, hmax]
      have hch1 : chron (⟨s.max_size, (s.write_index + 1) % s.max_size,
          s.buffer ++ [v], now⟩ : HistoryBuffer T) =
          (ws ++ [v]).drop ((ws ++ [v]).length - c) := by
        have hdrop0 : (ws ++ [v]).length - c = 0 := by
          simp only [harr]; omega
        rw [hdrop0, List.drop_zero]
        rcases Nat.lt_or_ge (ws.length + 1) c with h2 | h2
        · rw [chron_of_cursor_eq_length ?_]
          · show s.buffer ++ [v] = ws ++ [v]
            rw [hbuf]
          · show (s.write_index + 1) % s.max_size = (s.buffer ++ [v]).length
            rw [hwiv, hmax, Nat.mod_eq_of_lt h2, hbuf, harr]
        · have hend : ws.length + 1 = c := by omega
          rw [chron_of_cursor_zero ?_]
          · show s.buffer ++ [v] = ws ++ [v]
            rw [hbuf]
          · show (s.write_index + 1) % s.max_size = 0
            rw [hwiv, hmax, hend, Nat.mod_self]
      obtain ⟨s2, hrun, hmax2, hlen2, hwi2, hch2⟩ :=
        ih (ws ++ [v]) _ hmax1 hlen1 hwi1 hch1
      have hstep := writeAll_cons_some s _ s2 v rest now none _ hwr hrun
      refine ⟨s2, ?_, hmax2, ?_, ?_, ?_⟩
      · rw [show (v :: rest).length = rest.length + 1 from rfl,
          range_map_cons_eq rest.length none _ _ (by simp [hmlt]) ?_]
        · exact hstep
        · intro j
          have h1 : ws.length + (j + 1) = (ws ++ [v]).length + j := by
            simp only [harr]; omega
          rw [h1, hlist]
      · rw [hlen2, hLrw]
      · rw [hwi2, hLrw]
      · rw [hch2, hlist, hLrw]
    · -- full phase: every write displaces the oldest element
      have hlenv : s.buffer.length = c := by omega
      have hf : s.buffer.length = s.max_size := by omega
      have hwlt : s.write_index < s.buffer.length := by
        have := Nat.mod_lt ws.length hc
        omega
      obtain ⟨old, hold, hwr⟩ := write_full_eq v now hf hwlt
      have h1 : (ws.drop (ws.length - c))[0]? = ws[ws.length - c]? := by
        rw [List.getElem?_drop, Nat.add_zero]
      have hold2 : ws[ws.length - c]? = some old := by
        rw [← h1, ← hch, chron_head hwlt]
        exact hold
      have hmax1 : (⟨s.max_size, (s.write_index + 1) % s.max_size,
          s.buffer.set s.write_index v, now⟩ : HistoryBuffer T).max_size = c := hmax
      have hlen1 : (⟨s.max_size, (s.write_index + 1) % s.max_size,
          s.buffer.set s.write_index v, now⟩ : HistoryBuffer T).buffer.length =
          min (ws ++ [v]).length c := by
        show (s.buffer.set s.write_index v).length = min (ws ++ [v]).length c
        rw [List.length_set, hlenv, harr]
        omega
      have hwi1 : (⟨s.max_size, (s.write_index + 1) % s.max_size,
          s.buffer.set s.write_index v, now⟩ : HistoryBuffer T).write_index =
          (ws ++ [v]).length % c := by
        show (s.write_index + 1) % s.max_size = (ws ++ [v]).length % c
        rw [harr, hwi, hmax, Nat.mod_add_mod]
      have hch1 : chron (⟨s.max_size, (s.write_index + 1) % s.max_size,
          s.buffer.set s.write_index v, now⟩ : HistoryBuffer T) =
          (ws ++ [v]).drop ((ws ++ [v]).length - c) := by
        have hwc : s.write_index < c := by omega
        have hstep2 := chron_set_step hlenv hwc v
        have hchs : chron (⟨s.max_size, (s.write_index + 1) % s.max_size,
            s.buffer.set s.write_index v, now⟩ : HistoryBuffer T) =
            (s.buffer.set s.write_index v).drop ((s.write_index + 1) % c) ++
              (s.buffer.set s.write_index v).take ((s.write_index + 1) % c) := by
          show (s.buffer.set s.write_index v).drop ((s.write_index + 1) % s.max_size) ++
              (s.buffer.set s.write_index v).take ((s.write_index + 1) % s.max_size) =
            (s.buffer.set s.write_index v).drop ((s.write_index + 1) % c) ++
              (s.buffer.set s.write_index v).take ((s.write_index + 1) % c)
          rw [hmax]
        rw [hchs, hstep2,
          show s.buffer.drop s.write_index ++ s.buffer.take s.write_index = chron s from rfl,
          hch, List.tail_drop]
        have harith : (ws ++ [v]).length - c = (ws.length - c) + 1 := by
          simp only [harr]; omega
        rw [harith, List.drop_append_of_le_length (by omega)]
      obtain ⟨s2, hrun, hmax2, hlen2, hwi2, hch2⟩ :=
        ih (ws ++ [v]) _ hmax1 hlen1 hwi1 hch1
      have hstep := writeAll_cons_some s _ s2 v rest now (some old) _ hwr hrun
      refine ⟨s2, ?_, hmax2, ?_, ?_, ?_⟩
      · rw [show (v :: rest).length = rest.length + 1 from rfl,
          range_map_cons_eq rest.length (some old) _ _ ?_ ?_]
        · exact hstep
        · rw [if_neg (by omega), Nat.add_zero,
            List.getElem?_append_left (by omega)]
          exact hold2
        · intro j
          have h1 : ws.length + (j + 1) = (ws ++ [v]).length + j := by
            simp only [harr]; omega
          rw [h1, hlist]
      · rw [hlen2, hLrw]
      · rw [hwi2, hLrw]
      · rw [hch2, hlist, hLrw]

/-- `most_recent` answers `None` (without panicking) exactly on empty states. -/
theorem most_recent_eq_some_none_iff {T : Type} (s : HistoryBuffer T) :
    s.most_recent = some none ↔ s.is_empty = true := by
  unfold HistoryBuffer.most_recent
  by_cases he : s.is_empty = true
  · simp [he]
  · rw [if_neg he]
    have hlen0 : s.buffer.length ≠ 0 := by
      simpa [HistoryBuffer.is_empty] using he
    by_cases hw0 : s.write_index = 0
    · rw [if_pos (by simp [hw0])]
      simp only [Option.some.injEq]
      constructor
      · intro h2
        rw [List.getLast?_eq_none_iff] at h2
        exact absurd (by rw [h2]; rfl) hlen0
      · intro h; exact absurd h he
    · rw [if_neg (by simp [hw0])]
      constructor
      · intro h
        cases hg : s.buffer[s.write_index - 1]? with
        | none => rw [hg] at h; simp at h
        | some x => rw [hg] at h; simp at h
      · intro h; exact absurd h he

/-- On a non-empty state whose cursor is in range, `most_recent` succeeds and
returns the last element of the chronological view. -/
theorem most_recent_eq_chron_getLast {T : Type} (s : HistoryBuffer T)
    (hlen : 0 < s.buffer.length) (hwile : s.write_index ≤ s.buffer.length) :
    s.most_recent = some (chron s).getLast? := by
  unfold HistoryBuffer.most_recent
  have hne : ¬ s.is_empty = true := by
    simp only [HistoryBuffer.is_empty, beq_iff_eq]
    omega
  rw [if_neg hne]
  by_cases hw0 : s.write_index = 0
  · rw [if_pos (by simp [hw0]), chron_of_cursor_zero hw0]
  · rw [if_neg (by simp [hw0])]
    have hwpos : 0 < s.write_index := Nat.pos_of_ne_zero hw0
    have hlt : s.write_index - 1 < s.buffer.length := by omega
    have hlt2 : s.write_index - 1 < s.write_index := by omega
    have hlen_take : (s.buffer.take s.write_index).length = s.write_index := by
      rw [List.length_take]; omega
    have hgl : (s.buffer.take s.write_index).getLast? = s.buffer[s.write_index - 1]? := by
      rw [List.getLast?_eq_getElem?, hlen_take, List.getElem?_take_of_lt hlt2]
    have hglc : (chron s).getLast? = s.buffer[s.write_index - 1]? := by
      unfold chron
      rw [List.getLast?_append, hgl, List.getElem?_eq_getElem hlt]
      rfl
    rw [hglc, List.getElem?_eq_getElem hlt]
    rfl

/-- After any number of writes into a fresh buffer of capacity `c > 0`, the
cursor stays within the storage length. -/
theorem cursor_le_length_of_min_mod {c n wi len : Nat} (hc : 0 < c)
    (hlen : len = min n c) (hwi : wi = n % c) : wi ≤ len := by
  have hmod : n % c < c := Nat.mod_lt _ hc
  rcases Nat.lt_or_ge n c with h | h
  · rw [hwi, hlen, Nat.mod_eq_of_lt h, Nat.min_eq_left (Nat.le_of_lt h)]
  · rw [hwi, hlen, Nat.min_eq_right h]
    exact Nat.le_of_lt hmod

/-- Claim C2: writing any sequence into a fresh buffer of positive capacity
`c` succeeds, the `j`-th write (0-based) returns nothing while `j < c`, and
every later write displaces the oldest surviving value `vs[j - c]` — FIFO
displacement order (with capacity 3 and writes A, B, C, D the first three
writes return nothing and the fourth returns A). -/
theorem fifo_displacement {T : Type} (c t now : Nat) (vs : List T) (hc : 0 < c) :
    ∃ s2, writeAll (HistoryBuffer.new T c t) vs now = some
        ((List.range vs.length).map fun j =>
          if j < c then none else vs[j - c]?, s2) := by
  obtain ⟨s2, hrun, _, _, _, _⟩ :=
    writeAll_spec c now hc vs [] (HistoryBuffer.new T c t) rfl
      (by simp [HistoryBuffer.new]) (by simp [HistoryBuffer.new])
      (by simp [chron, HistoryBuffer.new])
  refine ⟨s2, ?_⟩
  rw [hrun]
  simp only [List.length_nil, List.nil_append, Nat.zero_add]

/-- Concrete instance of `fifo_displacement`: capacity 3, writes 1, 2, 3, 4;
the first three writes return nothing and the fourth returns 1. -/
theorem fifo_displacement_witness :
    0 < 3 ∧
    ∃ s2, writeAll (HistoryBuffer.new Nat 3 0) [1, 2, 3, 4] 0 = some
        ((List.range [1, 2, 3, 4].length).map fun j =>
          if j < 3 then none else [1, 2, 3, 4][j - 3]?, s2) :=
  ⟨by decide, fifo_displacement 3 0 0 [1, 2, 3, 4] (by decide)⟩

/-- Claim C3: after writing `vs` into a fresh buffer of positive capacity `c`,
`all()` yields `storage[write_cursor..] ++ storage[..write_cursor]`, which is
exactly the last `c` values written, oldest first; when at most `c` values
have been written it is all of them in write order. -/
theorem all_chronological {T : Type} (c t now : Nat) (vs : List T) (hc : 0 < c) :
    ∃ rs s2, writeAll (HistoryBuffer.new T c t) vs now = some (rs, s2) ∧
      s2.all = some (s2.buffer.drop s2.write_index ++ s2.buffer.take s2.write_index) ∧
      s2.all = some (vs.drop (vs.length - c)) ∧
      (vs.length ≤ c → s2.all = some vs) := by
  obtain ⟨s2, hrun, hmax2, hlen2, hwi2, hch2⟩ :=
    writeAll_spec c now hc vs [] (HistoryBuffer.new T c t) rfl
      (by simp [HistoryBuffer.new]) (by simp [HistoryBuffer.new])
      (by simp [chron, HistoryBuffer.new])
  simp only [List.length_nil, List.nil_append, Nat.zero_add] at hrun hlen2 hwi2 hch2
  have hwile : s2.write_index ≤ s2.buffer.length :=
    cursor_le_length_of_min_mod hc hlen2 hwi2
  have hall : s2.all =
      some (s2.buffer.drop s2.write_index ++ s2.buffer.take s2.write_index) := by
    unfold HistoryBuffer.all
    rw [if_pos hwile]
  have hall2 : s2.all = some (vs.drop (vs.length - c)) := by
    rw [hall]
    exact congrArg some hch2
  refine ⟨_, s2, hrun, hall, hall2, fun hle => ?_⟩
  rw [hall2, Nat.sub_eq_zero_of_le hle, List.drop_zero]

/-- Concrete instance of `all_chronological`: capacity 3, writes 5, 6, 7, 8;
`all()` yields the last three values 6, 7, 8 in chronological order. -/
theorem all_chronological_witness :
    0 < 3 ∧
    ∃ rs s2, writeAll (HistoryBuffer.new Nat 3 0) [5, 6, 7, 8] 0 = some (rs, s2) ∧
      s2.all = some (s2.buffer.drop s2.write_index ++ s2.buffer.take s2.write_index) ∧
      s2.all = some ([5, 6, 7, 8].drop ([5, 6, 7, 8].length - 3)) ∧
      ([5, 6, 7, 8].length ≤ 3 → s2.all = some [5, 6, 7, 8]) :=
  ⟨by decide, all_chronological 3 0 0 [5, 6, 7, 8] (by decide)⟩

/-- Claim C4: `most_recent` answers `None` exactly on empty buffers; after a
non-empty sequence of writes into a fresh buffer of positive capacity it
returns the last value written, regardless of wraparound; and on any non-empty
state it reads the last element of storage when the cursor is 0 and
`storage[write_index - 1]` otherwise. -/
theorem most_recent_correct {T : Type} (c t now : Nat) (vs : List T)
    (hc : 0 < c) (hvs : vs ≠ []) :
    (∀ s : HistoryBuffer T, s.most_recent = some none ↔ s.is_empty = true) ∧
    (∀ s : HistoryBuffer T, s.is_empty = false →
      (s.write_index = 0 → s.most_recent = some s.buffer.getLast?) ∧
      (s.write_index ≠ 0 →
        s.most_recent = (s.buffer[s.write_index - 1]?).map some)) ∧
    ∃ rs s2, writeAll (HistoryBuffer.new T c t) vs now = some (rs, s2) ∧
      s2.most_recent = some vs.getLast? := by
  refine ⟨fun s => most_recent_eq_some_none_iff s, fun s hne => ⟨?_, ?_⟩, ?_⟩
  · intro h0
    unfold HistoryBuffer.most_recent
    rw [if_neg (by simp [hne]), if_pos (by simp [h0])]
  · intro h0
    unfold HistoryBuffer.most_recent
    rw [if_neg (by simp [hne]), if_neg (by simp [h0])]
  · obtain ⟨s2, hrun, hmax2, hlen2, hwi2, hch2⟩ :=
      writeAll_spec c now hc vs [] (HistoryBuffer.new T c t) rfl
        (by simp [HistoryBuffer.new]) (by simp [HistoryBuffer.new])
        (by simp [chron, HistoryBuffer.new])
    simp only [List.length_nil, List.nil_append, Nat.zero_add] at hrun hlen2 hwi2 hch2
    have hvlen : 0 < vs.length := List.length_pos.mpr hvs
    have hlpos : 0 < s2.buffer.length := by
      rw [hlen2]
      omega
    have hwile : s2.write_index ≤ s2.buffer.length :=
      cursor_le_length_of_min_mod hc hlen2 hwi2
    have hgl : (vs.drop (vs.length - c)).getLast? = vs.getLast? := by
      rw [List.getLast?_drop, if_neg (by omega)]
    refine ⟨_, s2, hrun, ?_⟩
    rw [most_recent_eq_chron_getLast s2 hlpos hwile, hch2, hgl]

/-- Concrete instance of `most_recent_correct`: capacity 2, writes 4, 5, 6;
`most_recent` returns the last value 6. -/
theorem most_recent_correct_witness :
    0 < 2 ∧ ([4, 5, 6] : List Nat) ≠ [] ∧
    ((∀ s : HistoryBuffer Nat, s.most_recent = some none ↔ s.is_empty = true) ∧
      (∀ s : HistoryBuffer Nat, s.is_empty = false →
        (s.write_index = 0 → s.most_recent = some s.buffer.getLast?) ∧
        (s.write_index ≠ 0 →
          s.most_recent = (s.buffer[s.write_index - 1]?).map some)) ∧
      ∃ rs s2, writeAll (HistoryBuffer.new Nat 2 0) [4, 5, 6] 0 = some (rs, s2) ∧
        s2.most_recent = some ([4, 5, 6] : List Nat).getLast?) :=
  ⟨by decide, by decide, most_recent_correct 2 0 0 [4, 5, 6] (by decide) (by decide)⟩

end HistoryBufferSpec
